import Mathlib

/-!
Verification development for the fact resolution engine of the facter
repository.

The repository ships only the resolver base-class header
(`src/lib/inc/facter/facts/resolver.hpp`) and the behavioural test suite
(`src/lib/tests/ruby/ruby.cc`); the engine implementation itself
(collection, resolution selection, aggregate resolution, merge) is not
part of the source tree.  The definitions below are therefore modelled
from the natural-language specification (`spec.md`), with the test suite
taken as the authority wherever it pins concrete behaviour (for example
the merge-conflict diagnostics of `ruby.cc`).
-/

namespace Facter

/-- Modelled from the spec: the closed, recursive value algebra every fact
value is expressed in (spec §3 "Value"): null ("no value"), string, signed
integer, double, boolean, ordered array, and an insertion-ordered map with
string keys.  IEEE doubles are abstracted as rationals; no claim exercises
floating-point behaviour. -/
inductive Value where
  | null : Value
  | str (s : String) : Value
  | int (i : Int) : Value
  | double (d : Rat) : Value
  | bool (b : Bool) : Value
  | array (xs : List Value) : Value
  | map (kvs : List (String × Value)) : Value

/-- Modelled from the spec: per-fact resolution status (spec §3 "Fact").
The cache stores only the terminal states; `unresolved` is represented by
absence from the cache and `resolving` by membership in the in-progress
set. -/
inductive FactState where
  | resolved (v : Value) : FactState
  | absent : FactState

/-- Modelled from the spec: diagnostics reported (not thrown) by the
aggregate-resolution machinery (spec §4.4, §6 "Diagnostics sink"):
an invalid chunk requirement, a chunk dependency cycle, a merge conflict
naming the two values that cannot be merged (compare the test diagnostic
`cannot merge "hello":String and "world":String`, ruby.cc:480), and
exhaustion of the merge recursion allowance (a model artifact of the
fuelled embedding). -/
inductive AggError where
  | invalidReference (chunkName dep : String) : AggError
  | chunkCycle : AggError
  | mergeConflict (left right : Value) : AggError
  | mergeFuel : AggError

/-- Modelled from the spec: errors that propagate out of `collection.get`:
the circular-resolution error naming the offending fact
(`circular_resolution_exception`, resolver.hpp:23; spec §4.6 step 3), and
exhaustion of the recursion allowance of the fuelled embedding. -/
inductive GetError where
  | fuel : GetError
  | circular (name : String) : GetError

/-- True for the scalar kinds of the value algebra (string, integer,
double, boolean), false for null and the two composite kinds. -/
def Value.isScalar : Value → Bool
  | .str _ => true
  | .int _ => true
  | .double _ => true
  | .bool _ => true
  | _ => false

/-- Look a key up in an insertion-ordered association list. -/
def lookupKV (kvs : List (String × Value)) (k : String) : Option Value :=
  (kvs.find? (fun p => p.1 == k)).map (fun p => p.2)

/-- True when the key of `p` does not occur among the keys of `xs`. -/
def keyAbsent (xs : List (String × Value)) (p : String × Value) : Bool :=
  xs.all (fun q => !(q.1 == p.1))

/-- Modelled from the spec: the key-wise part of the recursive map merge
(spec §4.4).  Walks the left map's entries in order; an entry whose key
also occurs in the right map is merged with `rec` (the one-level-deeper
merge), an entry without a counterpart is kept as is.  Right-only entries
are appended by the caller. -/
def mergeEntries (rec : Value → Value → Except AggError Value) :
    List (String × Value) → List (String × Value) →
    Except AggError (List (String × Value))
  | [], _ => .ok []
  | (k, v) :: rest, ys =>
    match ys.find? (fun p => p.1 == k) with
    | some p =>
      match rec v p.2 with
      | .ok m =>
        match mergeEntries rec rest ys with
        | .ok tail => .ok ((k, m) :: tail)
        | .error e => .error e
      | .error e => .error e
    | none =>
      match mergeEntries rec rest ys with
      | .ok tail => .ok ((k, v) :: tail)
      | .error e => .error e

/-- Modelled from the spec: the default type-directed merge of chunk
values (spec §4.4): two arrays concatenate, two maps merge recursively
key-wise, a null on either side yields the other side, and every other
combination is a merge conflict naming the two values — the test suite
fixes that even two values of the same scalar type conflict
(`cannot merge "hello":String and "world":String`, ruby.cc:480).
The first argument is recursion fuel for the nesting depth; call sites
supply at least the depth of the merged values. -/
def deepMerge : Nat → Value → Value → Except AggError Value
  | 0 => fun _ _ => .error .mergeFuel
  | Nat.succ f => fun l r =>
    match l, r with
    | .array xs, .array ys => .ok (.array (xs ++ ys))
    | .map xs, .map ys =>
      match mergeEntries (deepMerge f) xs ys with
      | .ok merged => .ok (.map (merged ++ ys.filter (keyAbsent xs)))
      | .error e => .error e
    | v, .null => .ok v
    | .null, v => .ok v
    | l, r => .error (.mergeConflict l r)

/-- Modelled from the spec: a chunk of an aggregate resolution (spec §3
"Chunk"): a name, the names of the chunks it requires, and a producer
that receives the values of the required chunks (in requirement order)
and yields the chunk's value. -/
structure Chunk where
  name : String
  requires : List String
  producer : List Value → Value

/-- True when every requirement of chunk `c` has already been emitted
(its name is in `done`). -/
def chunkEligible (done : List String) (c : Chunk) : Bool :=
  c.requires.all (fun d => done.contains d)

/-- The first chunk (in declaration order) all of whose requirements are
already emitted, together with the remaining chunks. -/
def pickNext (done : List String) : List Chunk → Option (Chunk × List Chunk)
  | [] => none
  | c :: rest =>
    if chunkEligible done c then some (c, rest)
    else (pickNext done rest).map (fun p => (p.1, c :: p.2))

/-- Modelled from the spec: the stable topological ordering of the chunk
dependency graph (spec §4.4): repeatedly emit the first declared chunk
whose requirements are all satisfied; if no chunk is eligible while
chunks remain, the graph has a dependency cycle and the ordering fails.
Ties among simultaneously eligible chunks preserve declaration order. -/
def topoAux : Nat → List String → List Chunk → Option (List Chunk)
  | _, _, [] => some []
  | 0, _, _ :: _ => none
  | Nat.succ f, done, cs =>
    match pickNext done cs with
    | none => none
    | some (c, rest) => (topoAux f (done ++ [c.name]) rest).map (fun l => c :: l)

/-- The stable topological order of a chunk list, or `none` when the
requirement graph has a cycle. -/
def topoChunks (cs : List Chunk) : Option (List Chunk) :=
  topoAux cs.length [] cs

/-- Modelled from the spec: the registration-time check for a requirement
naming a chunk absent from the chunk set (spec §4.4): the first offending
(chunk, requirement) pair, if any. -/
def findInvalidRef (chunks : List Chunk) : Option (String × String) :=
  chunks.findSome? (fun c =>
    (c.requires.find? (fun d => !((chunks.map Chunk.name).contains d))).map
      (fun d => (c.name, d)))

/-- Modelled from the spec: invoke the chunk producers along a computed
topological order, passing previously computed chunk outputs to later
chunks that require them, and merge the results in that order with the
default merge (spec §4.4).  `mf` is the merge recursion fuel. -/
def runOrder (mf : Nat) : List Chunk → List (String × Value) → Value →
    Except AggError Value
  | [], _, acc => .ok acc
  | c :: rest, computed, acc =>
    match deepMerge mf acc
        (c.producer (c.requires.map (fun d => (lookupKV computed d).getD Value.null))) with
    | .ok acc2 =>
      runOrder mf rest
        (computed ++ [(c.name,
          c.producer (c.requires.map (fun d => (lookupKV computed d).getD Value.null)))]) acc2
    | .error e => .error e

/-- Modelled from the spec: resolve an aggregate resolution (spec §4.4):
reject a requirement that names a chunk absent from the chunk set, detect
requirement cycles before invoking any producer, and otherwise run the
chunks in stable topological order, merging their outputs with the
default merge starting from null. -/
def aggResolve (mf : Nat) (chunks : List Chunk) : Except AggError Value :=
  match findInvalidRef chunks with
  | some p => .error (.invalidReference p.1 p.2)
  | none =>
    match topoChunks chunks with
    | none => .error .chunkCycle
    | some ord => runOrder mf ord [] .null

/-- Modelled from the spec: the chunk requirement relation of an aggregate
resolution: `chunkDep chunks a b` holds when some chunk named `a`
requires chunk `b` (spec §4.4). -/
def chunkDep (chunks : List Chunk) (a b : String) : Prop :=
  ∃ c ∈ chunks, c.name = a ∧ b ∈ c.requires

/-- Modelled from the spec: a confine gating a resolution's applicability
(spec §3 "Confine"): a fact name and a predicate over that fact's current
value.  The concrete predicate shapes (exact value, membership, regex,
range, block) are abstracted as a boolean function of the value. -/
structure Confine where
  factName : String
  pred : Value → Bool

/-- Modelled from the spec: a simple resolution's producer (spec §6
"Producer contract"): a function of the current collection yielding a
value or no value.  The embedding closes producers over two shapes that
the claims exercise: a constant, and a request for another fact's value
through `collection.get` (which is how resolution cycles arise). -/
inductive Producer where
  | const (v : Option Value) : Producer
  | ofFact (name : String) : Producer

/-- Modelled from the spec: the closed set of resolution kinds — simple
versus aggregate (spec §9: a tagged variant dispatched by the selection
algorithm). -/
inductive ResAction where
  | produce (p : Producer) : ResAction
  | aggregate (chunks : List Chunk) : ResAction

/-- The kind tag of a resolution body: simple or aggregate. -/
inductive ResKind where
  | simple : ResKind
  | aggregate : ResKind

/-- The kind of a resolution body. -/
def ResAction.kind : ResAction → ResKind
  | .produce _ => .simple
  | .aggregate _ => .aggregate

/-- Modelled from the spec: one candidate producer for a fact (spec §3
"Resolution"): an ordered list of confines that must all pass, an
optional explicit integer weight, and a body that is either a simple
producer or an aggregate chunk set. -/
structure Resolution where
  confines : List Confine
  weightOpt : Option Nat
  action : ResAction

/-- Modelled from the spec: a resolution's effective weight — the
explicitly declared weight when one was given, and otherwise the number
of confines the resolution carries (the implicit default exercised by the
`confine_weight` test, ruby.cc:289). -/
def Resolution.weight (r : Resolution) : Nat :=
  r.weightOpt.getD r.confines.length

/-- Modelled from the spec: a fact definition registered with the
collection: the fact name and the ordered list of resolutions claiming
it (registration order is the list order). -/
structure FactDef where
  name : String
  resolutions : List Resolution

/-- Modelled from the spec: the static part of a collection (spec §3
"Collection"): the process environment (for the override check) and the
registered fact definitions.  Pattern-based ("dynamic") resolvers are
outside the claims and are not modelled. -/
structure Collection where
  env : List (String × String)
  facts : List FactDef

/-- Modelled from the spec: the mutable state of a resolution run: the
fact cache (name to terminal state; an unresolved fact is absent from the
cache), the in-progress resolution set (cross-resolver cycle guard,
spec §4.6), the reported diagnostics, and a count of simple-producer
invocations (observing "invokes no producer again"). -/
structure CollState where
  cache : List (String × FactState)
  resolving : List String
  diags : List AggError
  runs : Nat

/-- Case-insensitive string comparison: equality after lowercasing the
character sequences. -/
def lowerEq (a b : String) : Bool :=
  a.data.map Char.toLower == b.data.map Char.toLower

/-- Modelled from the spec: the environment-override lookup (spec §4.6
step 1, §6): a variable named by the fixed prefix `FACTER_` plus the fact
name, matched case-insensitively, whose value is taken verbatim. -/
def envLookup (env : List (String × String)) (name : String) : Option String :=
  (env.find? (fun p => lowerEq p.1 ("FACTER_" ++ name))).map (fun p => p.2)

/-- Look a fact's cached terminal state up. -/
def cacheLookup (cache : List (String × FactState)) (n : String) :
    Option FactState :=
  (cache.find? (fun p => p.1 == n)).map (fun p => p.2)

/-- Set the entry for key `n`, replacing an existing binding in place and
appending otherwise. -/
def setEntry : List (String × FactState) → String → FactState →
    List (String × FactState)
  | [], n, fs => [(n, fs)]
  | (k, v) :: rest, n, fs =>
    if k == n then (n, fs) :: rest else (k, v) :: setEntry rest n fs

/-- Store a terminal state for fact `n` in the cache. -/
def cacheSet (st : CollState) (n : String) (fs : FactState) : CollState :=
  { st with cache := setEntry st.cache n fs }

/-- Push a fact name onto the in-progress resolution set. -/
def pushResolving (st : CollState) (n : String) : CollState :=
  { st with resolving := n :: st.resolving }

/-- Pop a fact name from the in-progress resolution set. -/
def popResolving (st : CollState) (n : String) : CollState :=
  { st with resolving := st.resolving.erase n }

/-- Record one producer invocation. -/
def bumpRuns (st : CollState) : CollState :=
  { st with runs := st.runs + 1 }

/-- Report a diagnostic through the diagnostics sink. -/
def addDiag (st : CollState) (e : AggError) : CollState :=
  { st with diags := st.diags ++ [e] }

/-- The terminal cache state corresponding to a resolution outcome: a
produced value is `resolved`, no value leaves the fact `absent`. -/
def stateOf : Option Value → FactState
  | some v => .resolved v
  | none => .absent

/-- The shape of `collection.get` at a fixed recursion depth: fact name
and run state to result and updated state. -/
def GetFun : Type :=
  String → CollState → (Except GetError (Option Value)) × CollState

/-- Modelled from the spec: `Confine.is_met` (spec §4.2): query the
collection for the referenced fact and apply the predicate; a fact that
cannot be resolved (absent, or failing) makes the confine not met rather
than erroring. -/
def evalConfine (g : GetFun) (c : Confine) (st : CollState) :
    Bool × CollState :=
  match g c.factName st with
  | (.ok (some v), st2) => (c.pred v, st2)
  | (.ok none, st2) => (false, st2)
  | (.error _, st2) => (false, st2)

/-- Modelled from the spec: evaluate a resolution's confines in order;
all must pass (spec §4.3 step 1); a resolution with zero confines is
always eligible (spec §4.2). -/
def evalConfines (g : GetFun) : List Confine → CollState → Bool × CollState
  | [], st => (true, st)
  | c :: rest, st =>
    match evalConfine g c st with
    | (true, st2) => evalConfines g rest st2
    | (false, st2) => (false, st2)

/-- Modelled from the spec: the eligible resolutions — those whose
confines are all met — in registration order (spec §4.3 step 1). -/
def eligibleResolutions (g : GetFun) : List Resolution → CollState →
    List Resolution × CollState
  | [], st => ([], st)
  | r :: rest, st =>
    match evalConfines g r.confines st with
    | (b, st2) =>
      match eligibleResolutions g rest st2 with
      | (l, st3) => (if b then r :: l else l, st3)

/-- Modelled from the spec: pick the winner among eligible resolutions
(spec §4.3 steps 2–3): the highest effective weight wins, and a tie is
broken in favour of the resolution registered first. -/
def bestResolution : List Resolution → Option Resolution
  | [] => none
  | r :: rest =>
    match bestResolution rest with
    | none => some r
    | some b => if b.weight > r.weight then some b else some r

/-- Modelled from the spec: the full selection algorithm of §4.3 given an
eligibility oracle: discard resolutions whose confines are not all met,
then pick the highest-weight, first-registered winner. -/
def selectPure (met : Confine → Bool) (rs : List Resolution) :
    Option Resolution :=
  bestResolution (rs.filter (fun r => r.confines.all met))

/-- Modelled from the spec: invoke a simple resolution's producer
(spec §4.3 step 4): a constant yields its value; a fact request queries
the collection and propagates a circular-resolution failure. -/
def runProducer (g : GetFun) (p : Producer) (st : CollState) :
    (Except GetError (Option Value)) × CollState :=
  match p with
  | .const ov => (.ok ov, bumpRuns st)
  | .ofFact n => g n (bumpRuns st)

/-- Modelled from the spec: invoke the winning resolution's body: a
simple producer runs directly; an aggregate runs its chunk graph, and an
aggregate failure is contained — the diagnostic is reported and the fact
is left absent rather than failing the run (spec §4.4, §7). -/
def runAction (g : GetFun) (mf : Nat) (a : ResAction) (st : CollState) :
    (Except GetError (Option Value)) × CollState :=
  match a with
  | .produce p => runProducer g p st
  | .aggregate chunks =>
    match aggResolve mf chunks with
    | .ok v => (.ok (some v), st)
    | .error e => (.ok none, addDiag st e)

/-- Modelled from the spec: the per-fact resolution protocol (spec §4.3,
§4.5): evaluate confines for every registered resolution, select the
winner by weight with first-registered tie-break, and invoke it; no
eligible resolution leaves the fact absent — not an error. -/
def resolveFactDef (g : GetFun) (mf : Nat) (rs : List Resolution)
    (st : CollState) : (Except GetError (Option Value)) × CollState :=
  match eligibleResolutions g rs st with
  | (elig, st2) =>
    match bestResolution elig with
    | none => (.ok none, st2)
    | some r => runAction g mf r.action st2

/-- Modelled from the spec: `collection.get` (spec §4.6): the environment
override takes precedence over all resolution; then the cache; then the
cycle guard, which fails with a circular-resolution error naming the fact
and leaves it absent in the cache; then resolver lookup (no resolver
leaves the fact absent); finally the fact name is pushed onto the
in-progress set, the fact is resolved, the name is popped on every exit
path, and the terminal outcome is cached.  The first argument is
recursion fuel, strictly decreasing at every nested `get`. -/
def getFact (coll : Collection) : Nat → GetFun
  | 0 => fun _ st => (.error .fuel, st)
  | Nat.succ f => fun name st =>
    match envLookup coll.env name with
    | some s => (.ok (some (.str s)), st)
    | none =>
      match cacheLookup st.cache name with
      | some (.resolved v) => (.ok (some v), st)
      | some .absent => (.ok none, st)
      | none =>
        if st.resolving.contains name then
          (.error (.circular name), cacheSet st name .absent)
        else
          match coll.facts.find? (fun fd => fd.name == name) with
          | none => (.ok none, cacheSet st name .absent)
          | some fd =>
            match resolveFactDef (getFact coll f) f fd.resolutions
                (pushResolving st name) with
            | (.ok ov, st2) =>
              (.ok ov, cacheSet (popResolving st2 name) name (stateOf ov))
            | (.error e, st2) =>
              (.error e, cacheSet (popResolving st2 name) name .absent)

/-- Confine evaluation at a concrete recursion depth, as used by the
resolution protocol. -/
def isMetAt (coll : Collection) (f : Nat) (c : Confine) (st : CollState) :
    Bool × CollState :=
  evalConfine (getFact coll f) c st

/-- Modelled from the spec: the registration-time collision check for
named resolutions (spec §4.4 last bullet): defining an aggregate
resolution under a name already held by a simple resolution is a
configuration error naming the colliding resolution, and vice versa; the
existing resolution is not overwritten.  A same-kind redefinition
replaces the existing resolution (the `named_resolution` behaviour,
ruby.cc:426). -/
inductive RegError where
  | aggregateOverSimple (resolutionName : String) : RegError
  | simpleOverAggregate (resolutionName : String) : RegError

/-- Replace the binding for resolution name `n`. -/
def setNamed : List (String × Resolution) → String → Resolution →
    List (String × Resolution)
  | [], n, r => [(n, r)]
  | (k, v) :: rest, n, r =>
    if k == n then (n, r) :: rest else (k, v) :: setNamed rest n r

/-- Modelled from the spec: register a named resolution on a fact
(spec §4.4 last bullet): a kind collision with an existing resolution of
the same name is rejected with a descriptive error naming it; a same-kind
redefinition replaces; a fresh name is appended in registration order. -/
def defineResolution (regs : List (String × Resolution)) (n : String)
    (r : Resolution) : Except RegError (List (String × Resolution)) :=
  match regs.find? (fun p => p.1 == n) with
  | some p =>
    match p.2.action.kind, r.action.kind with
    | .simple, .aggregate => .error (.aggregateOverSimple n)
    | .aggregate, .simple => .error (.simpleOverAggregate n)
    | _, _ => .ok (setNamed regs n r)
  | none => .ok (regs ++ [(n, r)])

/-- The state of a fresh resolution run: empty cache, empty in-progress
set, no diagnostics, no producer invocations. -/
def initState : CollState :=
  { cache := [], resolving := [], diags := [], runs := 0 }

/-- A concrete collection with a two-fact resolution cycle — fact `a`'s
producer requests `b` and `b`'s requests `a` — plus an unrelated fact `c`
(the shape of the `cycle.rb` test, ruby.cc:438). -/
def cycColl : Collection :=
  { env := []
    facts :=
      [ { name := "a"
          resolutions :=
            [{ confines := [], weightOpt := none
               action := .produce (.ofFact "b") }] }
      , { name := "b"
          resolutions :=
            [{ confines := [], weightOpt := none
               action := .produce (.ofFact "a") }] }
      , { name := "c"
          resolutions :=
            [{ confines := [], weightOpt := none
               action := .produce (.const (some (.str "cv"))) }] } ] }

/-- The run state after requesting fact `a` of `cycColl` — the state in
which the circular-resolution failure has been recorded. -/
def cycSt : CollState :=
  (getFact cycColl 9 "a" initState).2

/-- A concrete collection where the environment override `FACTER_RuBy`
competes with a high-weight resolution for fact `ruby` (the shape of the
`scoped_env` test, ruby.cc:566). -/
def envColl : Collection :=
  { env := [("FACTER_RuBy", "from environment!")]
    facts :=
      [ { name := "ruby"
          resolutions :=
            [{ confines := [], weightOpt := some 1000
               action := .produce (.const (some (.str "override"))) }] } ] }

/-- Concrete aggregate chunks `{a: [], b: [requires a]}` producing
`["x"]` and `["y"]` (the spec's §8 example). -/
def exChunks : List Chunk :=
  [ { name := "a", requires := [], producer := fun _ => .array [.str "x"] }
  , { name := "b", requires := ["a"], producer := fun _ => .array [.str "y"] } ]

/-- Concrete aggregate chunks with a requirement cycle
`a requires b, b requires a` (the shape of `aggregate_with_cycle.rb`,
ruby.cc:483). -/
def exCycChunks : List Chunk :=
  [ { name := "a", requires := ["b"], producer := fun _ => .array [.str "x"] }
  , { name := "b", requires := ["a"], producer := fun _ => .array [.str "y"] } ]

/-- A collection holding a single fact `agg` resolved by an aggregate
resolution over the given chunks. -/
def aggColl (chunks : List Chunk) : Collection :=
  { env := []
    facts :=
      [ { name := "agg"
          resolutions :=
            [{ confines := [], weightOpt := none
               action := .aggregate chunks }] } ] }

/-- Two requirement-free chunks producing the given maps, merged in
declaration order by the aggregate machinery (the shape of
`aggregate_with_merge.rb` / `aggregate_with_invalid_merge.rb`). -/
def mapChunks (xs ys : List (String × Value)) : List Chunk :=
  [ { name := "one", requires := [], producer := fun _ => .map xs }
  , { name := "two", requires := [], producer := fun _ => .map ys } ]

/-- A run state whose in-progress set already holds fact "z". -/
def wSt : CollState :=
  { cache := [], resolving := ["z"], diags := [], runs := 0 }

/-- The run state after resolving fact "c" of `cycColl` from a fresh
state: "c" cached, one producer invocation recorded. -/
def stC : CollState :=
  { cache := [("c", .resolved (.str "cv"))], resolving := [], diags := []
    runs := 1 }

/-- A named-resolution registry holding a simple resolution "bar". -/
def regs9 : List (String × Resolution) :=
  [("bar", { confines := [], weightOpt := none
             action := .produce (.const none) })]

/-- An aggregate resolution used to collide with the simple "bar". -/
def aggRes9 : Resolution :=
  { confines := [], weightOpt := none, action := .aggregate [] }

/-- A confine-free resolution of explicit weight 1 producing "value1". -/
def resW1 : Resolution :=
  { confines := [], weightOpt := some 1
    action := .produce (.const (some (.str "value1"))) }

/-- A confine-free resolution of explicit weight 2 producing "value2". -/
def resW2 : Resolution :=
  { confines := [], weightOpt := some 2
    action := .produce (.const (some (.str "value2"))) }

/-- A confine-free resolution of explicit weight 1 producing "value2",
registered after `resW1` to exercise the tie-break. -/
def resW1b : Resolution :=
  { confines := [], weightOpt := some 1
    action := .produce (.const (some (.str "value2"))) }

/-- A confine on fact `n` whose predicate accepts any value. -/
def confTrue (n : String) : Confine :=
  { factName := n, pred := fun _ => true }

/-- An unweighted resolution carrying one confine, producing "value1". -/
def resC1 : Resolution :=
  { confines := [confTrue "fact1"], weightOpt := none
    action := .produce (.const (some (.str "value1"))) }

/-- An unweighted resolution carrying two confines, producing "value2". -/
def resC2 : Resolution :=
  { confines := [confTrue "fact1", confTrue "fact2"], weightOpt := none
    action := .produce (.const (some (.str "value2"))) }

/-- The index of the first occurrence of a name in a list (list length
when absent). -/
def idxOf : List String → String → Nat
  | [], _ => 0
  | x :: rest, a => if x == a then 0 else idxOf rest a + 1

/-- The per-chunk array outputs of the `exChunks` example. -/
def outsEx : String → List Value :=
  fun n => if n == "a" then [.str "x"] else [.str "y"]

theorem getFact_env (coll : Collection) (f : Nat) (name : String)
    (st : CollState) (s : String) (h : envLookup coll.env name = some s) :
    getFact coll (f + 1) name st = (.ok (some (.str s)), st) := by
  simp [getFact, h]

theorem getFact_cached_resolved (coll : Collection) (f : Nat) (name : String)
    (st : CollState) (v : Value)
    (henv : envLookup coll.env name = none)
    (hc : cacheLookup st.cache name = some (.resolved v)) :
    getFact coll (f + 1) name st = (.ok (some v), st) := by
  simp [getFact, henv, hc]

theorem getFact_cached_absent (coll : Collection) (f : Nat) (name : String)
    (st : CollState)
    (henv : envLookup coll.env name = none)
    (hc : cacheLookup st.cache name = some .absent) :
    getFact coll (f + 1) name st = (.ok none, st) := by
  simp [getFact, henv, hc]

theorem getFact_cycle (coll : Collection) (f : Nat) (name : String)
    (st : CollState)
    (henv : envLookup coll.env name = none)
    (hc : cacheLookup st.cache name = none)
    (hr : st.resolving.contains name = true) :
    getFact coll (f + 1) name st =
      (.error (.circular name), cacheSet st name .absent) := by
  simp [getFact, henv, hc, hr]
  exact fun h => absurd (by simpa using hr) h

theorem lookup_setEntry_self (c : List (String × FactState)) (n : String)
    (fs : FactState) : cacheLookup (setEntry c n fs) n = some fs := by
  induction c with
  | nil => simp [setEntry, cacheLookup, List.find?]
  | cons p rest ih =>
    cases h : p.1 == n with
    | true => simp [setEntry, h, cacheLookup, List.find?]
    | false =>
      simp only [setEntry, h, Bool.false_eq_true, if_false]
      simpa [cacheLookup, List.find?, h] using ih

theorem evalConfine_res (g : GetFun)
    (hg : ∀ n s, ((g n s).2).resolving = s.resolving) (c : Confine)
    (st : CollState) : ((evalConfine g c st).2).resolving = st.resolving := by
  have hp := hg c.factName st
  cases h : g c.factName st with
  | mk res st2 =>
    rw [h] at hp
    have hp2 : st2.resolving = st.resolving := hp
    cases res with
    | ok ov => cases ov <;> simp [evalConfine, h, hp2]
    | error e => simp [evalConfine, h, hp2]

theorem evalConfines_res (g : GetFun)
    (hg : ∀ n s, ((g n s).2).resolving = s.resolving) (cs : List Confine) :
    ∀ st : CollState, ((evalConfines g cs st).2).resolving = st.resolving := by
  induction cs with
  | nil => intro st; rfl
  | cons c rest ih =>
    intro st
    have hc := evalConfine_res g hg c st
    cases h : evalConfine g c st with
    | mk b st2 =>
      rw [h] at hc
      have hc2 : st2.resolving = st.resolving := hc
      cases b
      · simp [evalConfines, h, hc2]
      · simp [evalConfines, h, hc2, ih st2]

theorem eligibleResolutions_res (g : GetFun)
    (hg : ∀ n s, ((g n s).2).resolving = s.resolving) (rs : List Resolution) :
    ∀ st : CollState,
      ((eligibleResolutions g rs st).2).resolving = st.resolving := by
  induction rs with
  | nil => intro st; rfl
  | cons r rest ih =>
    intro st
    have hc := evalConfines_res g hg r.confines st
    cases h : evalConfines g r.confines st with
    | mk b st2 =>
      rw [h] at hc
      have hc2 : st2.resolving = st.resolving := hc
      have h2 := ih st2
      cases h3 : eligibleResolutions g rest st2 with
      | mk l st3 =>
        rw [h3] at h2
        have h22 : st3.resolving = st2.resolving := h2
        simp [eligibleResolutions, h, h3, h22, hc2]

theorem runProducer_res (g : GetFun)
    (hg : ∀ n s, ((g n s).2).resolving = s.resolving) (p : Producer)
    (st : CollState) : ((runProducer g p st).2).resolving = st.resolving := by
  cases p with
  | const ov => rfl
  | ofFact n =>
    have := hg n (bumpRuns st)
    simpa [runProducer, bumpRuns] using this

theorem runAction_res (g : GetFun)
    (hg : ∀ n s, ((g n s).2).resolving = s.resolving) (mf : Nat)
    (a : ResAction) (st : CollState) :
    ((runAction g mf a st).2).resolving = st.resolving := by
  cases a with
  | produce p => exact runProducer_res g hg p st
  | aggregate chunks =>
    cases h : aggResolve mf chunks <;> simp [runAction, h, addDiag]

theorem resolveFactDef_res (g : GetFun)
    (hg : ∀ n s, ((g n s).2).resolving = s.resolving) (mf : Nat)
    (rs : List Resolution) (st : CollState) :
    ((resolveFactDef g mf rs st).2).resolving = st.resolving := by
  have he := eligibleResolutions_res g hg rs st
  cases h : eligibleResolutions g rs st with
  | mk elig st2 =>
    rw [h] at he
    have he2 : st2.resolving = st.resolving := he
    cases hb : bestResolution elig with
    | none => simp [resolveFactDef, h, hb, he2]
    | some r =>
      have := runAction_res g hg mf r.action st2
      simp [resolveFactDef, h, hb, this, he2]

theorem getFact_res (coll : Collection) :
    ∀ (f : Nat) (n : String) (st : CollState),
      ((getFact coll f n st).2).resolving = st.resolving := by
  intro f
  induction f with
  | zero => intro n st; rfl
  | succ f ih =>
    intro name st
    cases henv : envLookup coll.env name with
    | some s => simp [getFact, henv]
    | none =>
      cases hc : cacheLookup st.cache name with
      | some fs => cases fs <;> simp [getFact, henv, hc]
      | none =>
        cases hr : st.resolving.contains name with
        | true =>
          rw [getFact_cycle coll f name st henv hc hr]
          rfl
        | false =>
          cases hf : coll.facts.find? (fun fd => fd.name == name) with
          | none =>
            simp [getFact, henv, hc, hr, hf, cacheSet, setEntry]
            split <;> rfl
          | some fd =>
            have hrf := resolveFactDef_res (getFact coll f) ih f
              fd.resolutions (pushResolving st name)
            cases h5 : resolveFactDef (getFact coll f) f fd.resolutions
                (pushResolving st name) with
            | mk res st2 =>
              rw [h5] at hrf
              have hst2 : st2.resolving = name :: st.resolving := by
                have : st2.resolving = (pushResolving st name).resolving := hrf
                simpa [pushResolving] using this
              have herase : (name :: st.resolving).erase name = st.resolving :=
                List.erase_cons_head name st.resolving
              cases res with
              | ok ov =>
                simp [getFact, henv, hc, hr, hf, h5, cacheSet, popResolving,
                  hst2, herase]
                split <;> rfl
              | error e =>
                simp [getFact, henv, hc, hr, hf, h5, cacheSet, popResolving,
                  hst2, herase]
                split <;> rfl

theorem getFact_nofact (coll : Collection) (f : Nat) (name : String)
    (st : CollState)
    (henv : envLookup coll.env name = none)
    (hc : cacheLookup st.cache name = none)
    (hr : st.resolving.contains name = false)
    (hf : coll.facts.find? (fun fd => fd.name == name) = none) :
    getFact coll (f + 1) name st = (.ok none, cacheSet st name .absent) := by
  have hmem : name ∉ st.resolving := by simpa using hr
  simp [getFact, henv, hc, hf, hmem]

theorem getFact_resolve_ok (coll : Collection) (f : Nat) (name : String)
    (st st2 : CollState) (fd : FactDef) (ov : Option Value)
    (henv : envLookup coll.env name = none)
    (hc : cacheLookup st.cache name = none)
    (hr : st.resolving.contains name = false)
    (hf : coll.facts.find? (fun fd => fd.name == name) = some fd)
    (h5 : resolveFactDef (getFact coll f) f fd.resolutions
        (pushResolving st name) = (.ok ov, st2)) :
    getFact coll (f + 1) name st =
      (.ok ov, cacheSet (popResolving st2 name) name (stateOf ov)) := by
  have hmem : name ∉ st.resolving := by simpa using hr
  simp [getFact, henv, hc, hf, hmem, h5]

theorem getFact_resolve_error (coll : Collection) (f : Nat) (name : String)
    (st st2 : CollState) (fd : FactDef) (e : GetError)
    (henv : envLookup coll.env name = none)
    (hc : cacheLookup st.cache name = none)
    (hr : st.resolving.contains name = false)
    (hf : coll.facts.find? (fun fd => fd.name == name) = some fd)
    (h5 : resolveFactDef (getFact coll f) f fd.resolutions
        (pushResolving st name) = (.error e, st2)) :
    getFact coll (f + 1) name st =
      (.error e, cacheSet (popResolving st2 name) name .absent) := by
  have hmem : name ∉ st.resolving := by simpa using hr
  simp [getFact, henv, hc, hf, hmem, h5]

theorem cacheSet_lookup (st : CollState) (n : String) (fs : FactState) :
    cacheLookup (cacheSet st n fs).cache n = some fs :=
  lookup_setEntry_self st.cache n fs

/-- C7: After any completed `get` of a fact, every subsequent `get` of
the same name in the run returns one fixed result and leaves the state
entirely unchanged — in particular no producer is invoked again — and
when the first `get` returned a value, that same value is returned; the
terminal states resolved and absent are never invalidated or refreshed
within a run. -/
theorem claim_C7 (coll : Collection) (f : Nat) (name : String)
    (st st2 : CollState) (r : Except GetError (Option Value))
    (h : getFact coll (f + 1) name st = (r, st2)) :
    ∃ res, (∀ f2, getFact coll (f2 + 1) name st2 = (res, st2)) ∧
      (∀ ov, r = .ok ov → res = .ok ov) := by
  cases henv : envLookup coll.env name with
  | some s =>
    rw [getFact_env coll f name st s henv] at h
    injection h with h1 h2
    subst h1; subst h2
    exact ⟨.ok (some (.str s)),
      fun f2 => getFact_env coll f2 name st s henv,
      fun ov hov => hov ▸ rfl⟩
  | none =>
    cases hc : cacheLookup st.cache name with
    | some fs =>
      cases fs with
      | resolved v =>
        rw [getFact_cached_resolved coll f name st v henv hc] at h
        injection h with h1 h2
        subst h1; subst h2
        exact ⟨.ok (some v),
          fun f2 => getFact_cached_resolved coll f2 name st v henv hc,
          fun ov hov => hov ▸ rfl⟩
      | absent =>
        rw [getFact_cached_absent coll f name st henv hc] at h
        injection h with h1 h2
        subst h1; subst h2
        exact ⟨.ok none,
          fun f2 => getFact_cached_absent coll f2 name st henv hc,
          fun ov hov => hov ▸ rfl⟩
    | none =>
      cases hr : st.resolving.contains name with
      | true =>
        rw [getFact_cycle coll f name st henv hc hr] at h
        injection h with h1 h2
        subst h1; subst h2
        refine ⟨.ok none, fun f2 => ?_, fun ov hov => by cases hov⟩
        exact getFact_cached_absent coll f2 name _ henv
          (cacheSet_lookup st name .absent)
      | false =>
        cases hf : coll.facts.find? (fun fd => fd.name == name) with
        | none =>
          rw [getFact_nofact coll f name st henv hc hr hf] at h
          injection h with h1 h2
          subst h1; subst h2
          refine ⟨.ok none, fun f2 => ?_, fun ov hov => hov ▸ rfl⟩
          exact getFact_cached_absent coll f2 name _ henv
            (cacheSet_lookup st name .absent)
        | some fd =>
          cases h5 : resolveFactDef (getFact coll f) f fd.resolutions
              (pushResolving st name) with
          | mk res0 stm =>
            cases res0 with
            | ok ov =>
              rw [getFact_resolve_ok coll f name st stm fd ov henv hc hr hf h5]
                at h
              injection h with h1 h2
              subst h1; subst h2
              refine ⟨.ok ov, fun f2 => ?_, fun ov2 hov => by
                injection hov with hh; rw [hh]⟩
              cases ov with
              | some v =>
                exact getFact_cached_resolved coll f2 name _ v henv
                  (cacheSet_lookup _ name (.resolved v))
              | none =>
                exact getFact_cached_absent coll f2 name _ henv
                  (cacheSet_lookup _ name .absent)
            | error e =>
              rw [getFact_resolve_error coll f name st stm fd e henv hc hr hf
                h5] at h
              injection h with h1 h2
              subst h1; subst h2
              refine ⟨.ok none, fun f2 => ?_, fun ov hov => by cases hov⟩
              exact getFact_cached_absent coll f2 name _ henv
                (cacheSet_lookup _ name .absent)

/-- C1: If a fact name is already in the collection's in-progress
resolution set when `get` is called for it again — a fact transitively
requesting itself — `get` fails with a circular-resolution error naming
that fact and caches the fact as absent; the in-progress set is restored
after every traversal (the guard is scoped per traversal, not permanently
poisoned), and in the concrete two-fact cycle a→b→a the facts a and b end
absent while the unrelated fact c still resolves normally afterward. -/
theorem claim_C1 (coll : Collection) (f : Nat) (name : String)
    (st : CollState)
    (henv : envLookup coll.env name = none)
    (hcache : cacheLookup st.cache name = none)
    (hres : st.resolving.contains name = true) :
    getFact coll (f + 1) name st =
      (.error (.circular name), cacheSet st name .absent)
    ∧ cacheLookup (cacheSet st name .absent).cache name = some .absent
    ∧ (∀ (f2 : Nat) (n2 : String) (st2 : CollState),
        ((getFact coll f2 n2 st2).2).resolving = st2.resolving)
    ∧ ((getFact cycColl 9 "a" initState).1 = .error (.circular "a")
       ∧ cacheLookup cycSt.cache "a" = some .absent
       ∧ cacheLookup cycSt.cache "b" = some .absent
       ∧ cycSt.resolving = []
       ∧ (getFact cycColl 9 "c" cycSt).1 = .ok (some (.str "cv"))) :=
  ⟨getFact_cycle coll f name st henv hcache hres,
   cacheSet_lookup st name .absent,
   getFact_res coll,
   rfl, rfl, rfl, rfl, rfl⟩

/-- Witness for C1 at concrete inputs: fact "z" already in progress in
`cycColl`. -/
theorem claim_C1_witness :
    (envLookup cycColl.env "z" = none
     ∧ cacheLookup wSt.cache "z" = none
     ∧ wSt.resolving.contains "z" = true)
    ∧ (getFact cycColl (0 + 1) "z" wSt =
        (.error (.circular "z"), cacheSet wSt "z" .absent)
       ∧ cacheLookup (cacheSet wSt "z" .absent).cache "z" = some .absent
       ∧ (∀ (f2 : Nat) (n2 : String) (st2 : CollState),
           ((getFact cycColl f2 n2 st2).2).resolving = st2.resolving)
       ∧ ((getFact cycColl 9 "a" initState).1 = .error (.circular "a")
          ∧ cacheLookup cycSt.cache "a" = some .absent
          ∧ cacheLookup cycSt.cache "b" = some .absent
          ∧ cycSt.resolving = []
          ∧ (getFact cycColl 9 "c" cycSt).1 = .ok (some (.str "cv")))) :=
  ⟨⟨rfl, rfl, rfl⟩, claim_C1 cycColl 0 "z" wSt rfl rfl rfl⟩

/-- C3: If an environment variable named by the fixed prefix plus the
fact name (matched case-insensitively) is set to `s`, `get` returns the
string value `s` immediately with the run state untouched — no resolver
is invoked, even when a resolution of higher declared weight exists for
the fact. -/
theorem claim_C3 (coll : Collection) (f : Nat) (name : String)
    (st : CollState) (s : String)
    (h : envLookup coll.env name = some s) :
    getFact coll (f + 1) name st = (.ok (some (.str s)), st) :=
  getFact_env coll f name st s h

/-- Witness for C3: `FACTER_RuBy` overrides fact "ruby" although a
weight-1000 resolution for it exists in `envColl`. -/
theorem claim_C3_witness :
    envLookup envColl.env "ruby" = some "from environment!"
    ∧ getFact envColl (0 + 1) "ruby" initState =
        (.ok (some (.str "from environment!")), initState) :=
  ⟨rfl, claim_C3 envColl 0 "ruby" initState "from environment!" rfl⟩

/-- C8: A confine whose referenced fact cannot be resolved — `get`
yields no value or fails — evaluates to not met rather than raising an
error; a single failing confine short-circuits its resolution's
eligibility, and a resolution with zero confines is always eligible. -/
theorem claim_C8 :
    (∀ (coll : Collection) (f : Nat) (c : Confine) (st : CollState),
        (getFact coll f c.factName st).1 = .ok none →
        (isMetAt coll f c st).1 = false)
    ∧ (∀ (coll : Collection) (f : Nat) (c : Confine) (st : CollState)
        (e : GetError),
        (getFact coll f c.factName st).1 = .error e →
        (isMetAt coll f c st).1 = false)
    ∧ (∀ (g : GetFun) (st : CollState) (r : Resolution), r.confines = [] →
        evalConfines g r.confines st = (true, st))
    ∧ (∀ (g : GetFun) (c : Confine) (rest : List Confine) (st st2 : CollState),
        evalConfine g c st = (false, st2) →
        evalConfines g (c :: rest) st = (false, st2)) := by
  refine ⟨?_, ?_, ?_, ?_⟩
  · intro coll f c st h
    cases hg : getFact coll f c.factName st with
    | mk res st2 =>
      rw [hg] at h
      have h2 : res = .ok none := h
      subst h2
      simp [isMetAt, evalConfine, hg]
  · intro coll f c st e h
    cases hg : getFact coll f c.factName st with
    | mk res st2 =>
      rw [hg] at h
      have h2 : res = .error e := h
      subst h2
      simp [isMetAt, evalConfine, hg]
  · intro g st r hr
    rw [hr]
    rfl
  · intro g c rest st st2 h
    simp [evalConfines, h]

/-- Witness for C8: a confine on the unknown fact "zz" evaluates to not
met. -/
theorem claim_C8_witness :
    ((getFact cycColl 1 "zz" initState).1 = .ok none)
    ∧ (isMetAt cycColl 1 { factName := "zz", pred := fun _ => true }
        initState).1 = false :=
  ⟨rfl, claim_C8.1 cycColl 1 { factName := "zz", pred := fun _ => true }
    initState rfl⟩

/-- C9: Defining an aggregate resolution under a name already held by a
simple resolution is rejected at registration time with a descriptive
error naming the colliding resolution, and vice versa; registration
returns the error instead of a registry, so the existing resolution is
not silently overwritten. -/
theorem claim_C9 (regs : List (String × Resolution)) (n : String)
    (r : Resolution) (p : String × Resolution)
    (hfind : regs.find? (fun q => q.1 == n) = some p) :
    (p.2.action.kind = .simple → r.action.kind = .aggregate →
      defineResolution regs n r = .error (.aggregateOverSimple n))
    ∧ (p.2.action.kind = .aggregate → r.action.kind = .simple →
      defineResolution regs n r = .error (.simpleOverAggregate n)) := by
  constructor
  · intro h1 h2
    simp [defineResolution, hfind, h1, h2]
  · intro h1 h2
    simp [defineResolution, hfind, h1, h2]

/-- Witness for C9: defining an aggregate resolution named "bar" over an
existing simple resolution "bar" is rejected. -/
theorem claim_C9_witness :
    regs9.find? (fun q => q.1 == "bar") = some ("bar",
      { confines := [], weightOpt := none, action := .produce (.const none) })
    ∧ defineResolution regs9 "bar" aggRes9 =
        .error (.aggregateOverSimple "bar") :=
  ⟨rfl, (claim_C9 regs9 "bar" aggRes9 ("bar",
      { confines := [], weightOpt := none, action := .produce (.const none) })
      rfl).1 rfl rfl⟩

/-- Witness for C7: resolving fact "c" of `cycColl` once and then
observing that the repeated `get` is pure cache access. -/
theorem claim_C7_witness :
    getFact cycColl (0 + 1) "c" initState = (.ok (some (.str "cv")), stC)
    ∧ ∃ res, (∀ f2, getFact cycColl (f2 + 1) "c" stC = (res, stC))
        ∧ (∀ ov : Option Value,
            (.ok (some (.str "cv")) : Except GetError (Option Value)) =
              .ok ov → res = .ok ov) :=
  ⟨rfl, claim_C7 cycColl 0 "c" initState stC (.ok (some (.str "cv"))) rfl⟩

theorem bestResolution_mem (l : List Resolution) (b : Resolution)
    (h : bestResolution l = some b) : b ∈ l := by
  induction l generalizing b with
  | nil => cases h
  | cons r rest ih =>
    cases hb : bestResolution rest with
    | none =>
      rw [bestResolution, hb] at h
      injection h with h2
      subst h2
      exact List.mem_cons_self r rest
    | some b2 =>
      rw [bestResolution, hb] at h
      have h3 : (if b2.weight > r.weight then some b2 else some r) =
          some b := h
      by_cases hw : b2.weight > r.weight
      · rw [if_pos hw] at h3
        injection h3 with h2
        subst h2
        exact List.mem_cons_of_mem r (ih b2 hb)
      · rw [if_neg hw] at h3
        injection h3 with h2
        subst h2
        exact List.mem_cons_self r rest

theorem best_first_max (l1 : List Resolution) (r : Resolution)
    (l2 : List Resolution)
    (h1 : ∀ x ∈ l1, x.weight < r.weight)
    (h2 : ∀ x ∈ l2, x.weight ≤ r.weight) :
    bestResolution (l1 ++ r :: l2) = some r := by
  induction l1 with
  | nil =>
    cases hb : bestResolution l2 with
    | none => simp [bestResolution, hb]
    | some b =>
      have hmem := bestResolution_mem l2 b hb
      have hle := h2 b hmem
      have : ¬ b.weight > r.weight := not_lt.mpr hle
      simp [bestResolution, hb, this]
  | cons x l1t ih =>
    have hlt := h1 x (List.mem_cons_self x l1t)
    have hrec := ih (fun y hy => h1 y (List.mem_cons_of_mem x hy))
    have : bestResolution ((x :: l1t) ++ r :: l2) =
        match bestResolution (l1t ++ r :: l2) with
        | none => some x
        | some b => if b.weight > x.weight then some b else some x := rfl
    rw [this, hrec]
    simp [hlt]

theorem mem_first_split {α : Type} {a : α} {l : List α} (h : a ∈ l) :
    ∃ s t, l = s ++ a :: t ∧ a ∉ s := by
  induction l with
  | nil => cases h
  | cons x xs ih =>
    by_cases hx : x = a
    · subst hx
      exact ⟨[], xs, rfl, by simp⟩
    · have h2 : a ∈ xs := by
        rcases List.mem_cons.mp h with h3 | h3
        · exact absurd h3.symm hx
        · exact h3
      obtain ⟨s, t, hst, hns⟩ := ih h2
      refine ⟨x :: s, t, by rw [hst]; rfl, ?_⟩
      intro hmem
      rcases List.mem_cons.mp hmem with h4 | h4
      · exact hx h4.symm
      · exact hns h4

/-- C2: Among resolutions whose confines are all met, selection returns
the resolution with the strictly highest effective weight regardless of
registration order, and when the top weight is shared among eligible
resolutions the one registered first wins — so an external resolution at
equal weight does not override the built-in one registered before it. -/
theorem claim_C2 (met : Confine → Bool) (rs : List Resolution)
    (hmet : ∀ r ∈ rs, r.confines.all met = true) :
    (∀ r ∈ rs, (∀ x ∈ rs, x ≠ r → x.weight < r.weight) →
      selectPure met rs = some r)
    ∧ (∀ l1 r l2, rs = l1 ++ r :: l2 →
        (∀ x ∈ l1, x.weight < r.weight) →
        (∀ x ∈ l2, x.weight ≤ r.weight) →
        selectPure met rs = some r) := by
  have hfil : rs.filter (fun r => r.confines.all met) = rs :=
    List.filter_eq_self.mpr hmet
  constructor
  · intro r hr hmax
    obtain ⟨s, t, hst, hns⟩ := mem_first_split hr
    have hc : selectPure met rs = bestResolution (s ++ r :: t) := by
      rw [selectPure, hfil, hst]
    rw [hc]
    apply best_first_max
    · intro x hx
      have hxr : x ≠ r := fun he => hns (he ▸ hx)
      exact hmax x (hst ▸ List.mem_append_left _ hx) hxr
    · intro x hx
      by_cases he : x = r
      · exact le_of_eq (he ▸ rfl)
      · exact le_of_lt (hmax x
          (hst ▸ List.mem_append_right _ (List.mem_cons_of_mem r hx)) he)
  · intro l1 r l2 hsplit hlt hle
    rw [selectPure, hfil, hsplit]
    exact best_first_max l1 r l2 hlt hle

/-- Witness for C2: weights 1 and 2 in either registration order select
the weight-2 resolution; at equal weights the first registered wins. -/
theorem claim_C2_witness :
    (∀ r ∈ [resW1, resW2], r.confines.all (fun _ => true) = true)
    ∧ selectPure (fun _ => true) [resW1, resW2] = some resW2
    ∧ selectPure (fun _ => true) [resW2, resW1] = some resW2
    ∧ selectPure (fun _ => true) [resW1, resW1b] = some resW1 := by
  have hm1 : ∀ r ∈ [resW1, resW2], r.confines.all (fun _ => true) = true := by
    intro r hr
    rcases List.mem_cons.mp hr with h | h
    · subst h; rfl
    · rcases List.mem_cons.mp h with h2 | h2
      · subst h2; rfl
      · cases h2
  have hm2 : ∀ r ∈ [resW2, resW1], r.confines.all (fun _ => true) = true := by
    intro r hr
    rcases List.mem_cons.mp hr with h | h
    · subst h; rfl
    · rcases List.mem_cons.mp h with h2 | h2
      · subst h2; rfl
      · cases h2
  have hm3 : ∀ r ∈ [resW1, resW1b], r.confines.all (fun _ => true) = true := by
    intro r hr
    rcases List.mem_cons.mp hr with h | h
    · subst h; rfl
    · rcases List.mem_cons.mp h with h2 | h2
      · subst h2; rfl
      · cases h2
  refine ⟨hm1, ?_, ?_, ?_⟩
  · exact (claim_C2 (fun _ => true) [resW1, resW2] hm1).2 [resW1] resW2 [] rfl
      (by intro x hx; rcases List.mem_cons.mp hx with h | h
          · subst h; decide
          · cases h)
      (by intro x hx; cases hx)
  · exact (claim_C2 (fun _ => true) [resW2, resW1] hm2).2 [] resW2 [resW1] rfl
      (by intro x hx; cases hx)
      (by intro x hx; rcases List.mem_cons.mp hx with h | h
          · subst h; decide
          · cases h)
  · exact (claim_C2 (fun _ => true) [resW1, resW1b] hm3).2 [] resW1 [resW1b]
      rfl
      (by intro x hx; cases hx)
      (by intro x hx; rcases List.mem_cons.mp hx with h | h
          · subst h; decide
          · cases h)

/-- C10: A resolution without an explicit weight has effective weight
equal to its number of confines, so among eligible unweighted resolutions
the first one carrying the most confines wins selection — not a uniform
default weight of zero with a pure registration-order tie-break. -/
theorem claim_C10 (met : Confine → Bool) (rs : List Resolution)
    (hw : ∀ x ∈ rs, x.weightOpt = none)
    (hmet : ∀ r ∈ rs, r.confines.all met = true) :
    (∀ x ∈ rs, x.weight = x.confines.length)
    ∧ (∀ l1 r l2, rs = l1 ++ r :: l2 →
        (∀ x ∈ l1, x.confines.length < r.confines.length) →
        (∀ x ∈ l2, x.confines.length ≤ r.confines.length) →
        selectPure met rs = some r) := by
  have hwl : ∀ x ∈ rs, x.weight = x.confines.length := by
    intro x hx
    simp [Resolution.weight, hw x hx]
  constructor
  · exact hwl
  · intro l1 r l2 hsplit hlt hle
    have hfil : rs.filter (fun r => r.confines.all met) = rs :=
      List.filter_eq_self.mpr hmet
    rw [selectPure, hfil, hsplit]
    apply best_first_max
    · intro x hx
      rw [hwl x (hsplit ▸ List.mem_append_left _ hx),
        hwl r (hsplit ▸ List.mem_append_right _ (List.mem_cons_self r l2))]
      exact hlt x hx
    · intro x hx
      rw [hwl x (hsplit ▸ List.mem_append_right _
          (List.mem_cons_of_mem r hx)),
        hwl r (hsplit ▸ List.mem_append_right _ (List.mem_cons_self r l2))]
      exact hle x hx

/-- Witness for C10: a later-registered resolution with two confines
beats the earlier one with a single confine, which a uniform zero default
with registration-order tie-break would not allow. -/
theorem claim_C10_witness :
    (∀ x ∈ [resC1, resC2], x.weightOpt = none)
    ∧ (∀ r ∈ [resC1, resC2], r.confines.all (fun _ => true) = true)
    ∧ selectPure (fun _ => true) [resC1, resC2] = some resC2 := by
  have hw : ∀ x ∈ [resC1, resC2], x.weightOpt = none := by
    intro x hx
    rcases List.mem_cons.mp hx with h | h
    · subst h; rfl
    · rcases List.mem_cons.mp h with h2 | h2
      · subst h2; rfl
      · cases h2
  have hm : ∀ r ∈ [resC1, resC2], r.confines.all (fun _ => true) = true := by
    intro r hr
    rcases List.mem_cons.mp hr with h | h
    · subst h; rfl
    · rcases List.mem_cons.mp h with h2 | h2
      · subst h2; rfl
      · cases h2
  refine ⟨hw, hm, ?_⟩
  exact (claim_C10 (fun _ => true) [resC1, resC2] hw hm).2 [resC1] resC2 []
    rfl
    (by intro x hx; rcases List.mem_cons.mp hx with h | h
        · subst h; decide
        · cases h)
    (by intro x hx; cases hx)

theorem scalar_merge_conflict (g : Nat) (l r : Value)
    (hl : l.isScalar = true) (hr : r.isScalar = true) :
    deepMerge (g + 1) l r = .error (.mergeConflict l r) := by
  cases l <;> cases r <;> simp [Value.isScalar] at hl hr <;> rfl

theorem lookupKV_cons (k0 : String) (v0 : Value)
    (rest : List (String × Value)) (k : String) :
    lookupKV ((k0, v0) :: rest) k =
      if (k0 == k) = true then some v0 else lookupKV rest k := by
  by_cases h : (k0 == k) = true
  · simp [lookupKV, List.find?, h]
  · have h2 : (k0 == k) = false := by
      cases hb : k0 == k
      · rfl
      · exact absurd hb h
    simp [lookupKV, List.find?, h2]

theorem mergeEntries_conflict (rec : Value → Value → Except AggError Value)
    (hrec : ∀ l r, l.isScalar = true → r.isScalar = true →
      rec l r = .error (.mergeConflict l r)) :
    ∀ (xs ys : List (String × Value)) (k : String) (v w : Value),
      lookupKV xs k = some v → lookupKV ys k = some w →
      (∀ p ∈ xs, (p.2).isScalar = true) →
      (∀ p ∈ ys, (p.2).isScalar = true) →
      ∃ l r, mergeEntries rec xs ys = .error (.mergeConflict l r)
        ∧ l.isScalar = true ∧ r.isScalar = true := by
  intro xs
  induction xs with
  | nil =>
    intro ys k v w hx
    simp [lookupKV] at hx
  | cons p0 rest ih =>
    intro ys k v w hx hy hxs hys
    obtain ⟨k0, v0⟩ := p0
    cases hf : ys.find? (fun p => p.1 == k0) with
    | some q =>
      have hq : q ∈ ys := List.mem_of_find?_eq_some hf
      have hv0 : v0.isScalar = true := hxs (k0, v0) (List.mem_cons_self _ _)
      have hq2 : (q.2).isScalar = true := hys q hq
      refine ⟨v0, q.2, ?_, hv0, hq2⟩
      simp [mergeEntries, hf, hrec v0 q.2 hv0 hq2]
    | none =>
      have hkk : (k0 == k) = false := by
        cases hb : k0 == k
        · rfl
        · exfalso
          have hk : k0 = k := by simpa using hb
          subst hk
          simp [lookupKV, hf] at hy
      rw [lookupKV_cons] at hx
      rw [hkk] at hx
      simp at hx
      obtain ⟨l, r, he, hls, hrs⟩ := ih ys k v w hx hy
        (fun p hp => hxs p (List.mem_cons_of_mem _ hp)) hys
      refine ⟨l, r, ?_, hls, hrs⟩
      simp [mergeEntries, hf, he]

theorem mergeEntries_disjoint (rec : Value → Value → Except AggError Value) :
    ∀ (xs ys : List (String × Value)),
      (∀ p ∈ xs, ys.find? (fun q => q.1 == p.1) = none) →
      mergeEntries rec xs ys = .ok xs := by
  intro xs
  induction xs with
  | nil => intro ys h; rfl
  | cons p0 rest ih =>
    intro ys h
    obtain ⟨k0, v0⟩ := p0
    have hf := h (k0, v0) (List.mem_cons_self _ _)
    simp only at hf
    simp [mergeEntries, hf, ih ys (fun p hp => h p (List.mem_cons_of_mem _ hp))]

theorem deepMerge_flat_conflict (f : Nat) (xs ys : List (String × Value))
    (k : String) (v w : Value)
    (hx : lookupKV xs k = some v) (hy : lookupKV ys k = some w)
    (hxs : ∀ p ∈ xs, (p.2).isScalar = true)
    (hys : ∀ p ∈ ys, (p.2).isScalar = true) :
    ∃ l r, deepMerge (f + 2) (.map xs) (.map ys) =
        .error (.mergeConflict l r)
      ∧ l.isScalar = true ∧ r.isScalar = true := by
  obtain ⟨l, r, he, hls, hrs⟩ :=
    mergeEntries_conflict (deepMerge (f + 1))
      (fun a b ha hb => scalar_merge_conflict f a b ha hb)
      xs ys k v w hx hy hxs hys
  refine ⟨l, r, ?_, hls, hrs⟩
  have h0 : deepMerge (f + 2) (.map xs) (.map ys) =
      (match mergeEntries (deepMerge (f + 1)) xs ys with
       | .ok merged => .ok (.map (merged ++ ys.filter (keyAbsent xs)))
       | .error e => .error e) := rfl
  rw [h0, he]

theorem deepMerge_disjoint (f : Nat) (xs ys : List (String × Value))
    (hd1 : ∀ p ∈ xs, ys.find? (fun q => q.1 == p.1) = none)
    (hd2 : ∀ p ∈ ys, keyAbsent xs p = true) :
    deepMerge (f + 1) (.map xs) (.map ys) = .ok (.map (xs ++ ys)) := by
  have hm := mergeEntries_disjoint (deepMerge f) xs ys hd1
  have hfil : ys.filter (keyAbsent xs) = ys := List.filter_eq_self.mpr hd2
  have h0 : deepMerge (f + 1) (.map xs) (.map ys) =
      (match mergeEntries (deepMerge f) xs ys with
       | .ok merged => .ok (.map (merged ++ ys.filter (keyAbsent xs)))
       | .error e => .error e) := rfl
  rw [h0, hm, hfil]

theorem getFact_aggError (coll : Collection) (f : Nat) (name : String)
    (st : CollState) (chunks : List Chunk) (wt : Option Nat) (e : AggError)
    (henv : envLookup coll.env name = none)
    (hcache : cacheLookup st.cache name = none)
    (hres : st.resolving.contains name = false)
    (hfind : coll.facts.find? (fun fd => fd.name == name) =
      some { name := name, resolutions :=
        [{ confines := [], weightOpt := wt, action := .aggregate chunks }] })
    (herr : aggResolve f chunks = .error e) :
    getFact coll (f + 1) name st =
      (.ok none,
        { cache := setEntry st.cache name .absent
          resolving := st.resolving
          diags := st.diags ++ [e]
          runs := st.runs }) := by
  have h5 : resolveFactDef (getFact coll f) f
      [{ confines := [], weightOpt := wt, action := .aggregate chunks }]
      (pushResolving st name) =
      (.ok none, addDiag (pushResolving st name) e) := by
    simp [resolveFactDef, eligibleResolutions, evalConfines, bestResolution,
      runAction, herr]
  have h6 := getFact_resolve_ok coll f name st
    (addDiag (pushResolving st name) e)
    { name := name, resolutions :=
      [{ confines := [], weightOpt := wt, action := .aggregate chunks }] }
    none henv hcache hres hfind h5
  rw [h6]
  cases st with
  | mk ca re di ru =>
    simp [cacheSet, popResolving, addDiag, pushResolving, stateOf,
      List.erase_cons_head]

theorem aggResolve_mapChunks_conflict (f : Nat)
    (xs ys : List (String × Value)) (l r : Value)
    (he : deepMerge (f + 2) (.map xs) (.map ys) =
      .error (.mergeConflict l r)) :
    aggResolve (f + 2) (mapChunks xs ys) = .error (.mergeConflict l r) := by
  have h1 : deepMerge (f + 2) Value.null (Value.map xs) = .ok (.map xs) := rfl
  have h2 : aggResolve (f + 2) (mapChunks xs ys) =
      runOrder (f + 2) (mapChunks xs ys) [] .null := rfl
  have h3 : runOrder (f + 2) (mapChunks xs ys) [] .null =
      (match deepMerge (f + 2) Value.null (Value.map xs) with
       | .ok acc2 => runOrder (f + 2) ((mapChunks xs ys).drop 1)
           [("one", Value.map xs)] acc2
       | .error e => .error e) := rfl
  have h4 : runOrder (f + 2) ((mapChunks xs ys).drop 1)
      [("one", Value.map xs)] (Value.map xs) =
      (match deepMerge (f + 2) (Value.map xs) (Value.map ys) with
       | .ok acc2 => runOrder (f + 2) [] [("one", Value.map xs),
           ("two", Value.map ys)] acc2
       | .error e => .error e) := rfl
  rw [h2, h3, h1]
  show runOrder (f + 2) ((mapChunks xs ys).drop 1) [("one", Value.map xs)]
    (Value.map xs) = Except.error (AggError.mergeConflict l r)
  rw [h4, he]

/-- C5 (amended): Under the default aggregate merge, two map chunk
outputs merge key-wise — maps with disjoint keys merge to their union —
but a key present in both maps with scalar values is always a merge
conflict, whether or not the two scalar types agree; the conflict is
reported as a diagnostic and the aggregate's fact becomes absent.  (The
original claim's "later value wins for same-type scalars" is refuted by
`counterexample_C5`, in line with the repository test diagnostic
`cannot merge "hello":String and "world":String`, ruby.cc:480.) -/
theorem claim_C5 :
    (∀ (f : Nat) (xs ys : List (String × Value)) (k : String) (v w : Value),
        lookupKV xs k = some v → lookupKV ys k = some w →
        (∀ p ∈ xs, (p.2).isScalar = true) →
        (∀ p ∈ ys, (p.2).isScalar = true) →
        ∃ l r, deepMerge (f + 2) (.map xs) (.map ys) =
            .error (.mergeConflict l r)
          ∧ l.isScalar = true ∧ r.isScalar = true)
    ∧ (∀ (f : Nat) (xs ys : List (String × Value)),
        (∀ p ∈ xs, ys.find? (fun q => q.1 == p.1) = none) →
        (∀ p ∈ ys, keyAbsent xs p = true) →
        deepMerge (f + 1) (.map xs) (.map ys) = .ok (.map (xs ++ ys)))
    ∧ (∀ (coll : Collection) (f : Nat) (name : String) (st : CollState)
        (xs ys : List (String × Value)) (wt : Option Nat) (k : String)
        (v w : Value),
        envLookup coll.env name = none →
        cacheLookup st.cache name = none →
        st.resolving.contains name = false →
        coll.facts.find? (fun fd => fd.name == name) =
          some { name := name, resolutions :=
            [{ confines := [], weightOpt := wt
               action := .aggregate (mapChunks xs ys) }] } →
        lookupKV xs k = some v → lookupKV ys k = some w →
        (∀ p ∈ xs, (p.2).isScalar = true) →
        (∀ p ∈ ys, (p.2).isScalar = true) →
        ∃ l r, getFact coll (f + 3) name st =
            (.ok none,
              { cache := setEntry st.cache name .absent
                resolving := st.resolving
                diags := st.diags ++ [AggError.mergeConflict l r]
                runs := st.runs })
          ∧ l.isScalar = true ∧ r.isScalar = true) := by
  refine ⟨deepMerge_flat_conflict, deepMerge_disjoint, ?_⟩
  intro coll f name st xs ys wt k v w henv hcache hres hfind hx hy hxs hys
  obtain ⟨l, r, he, hls, hrs⟩ := deepMerge_flat_conflict f xs ys k v w hx hy
    hxs hys
  have hagg := aggResolve_mapChunks_conflict f xs ys l r he
  exact ⟨l, r, getFact_aggError coll (f + 2) name st (mapChunks xs ys) wt
    (.mergeConflict l r) henv hcache hres hfind hagg, hls, hrs⟩

/-- C5 counterexample: merging `{k: "a"}` then `{k: "b"}` under the
default merge does not yield `{k: "b"}` as the claim states — the model,
following the repository's own test diagnostic (ruby.cc:480), reports a
merge conflict even though both scalars are strings. -/
theorem counterexample_C5 :
    deepMerge 2 (.map [("k", .str "a")]) (.map [("k", .str "b")]) =
      .error (.mergeConflict (.str "a") (.str "b"))
    ∧ deepMerge 2 (.map [("k", .str "a")]) (.map [("k", .str "b")]) ≠
      .ok (.map [("k", .str "b")]) := by
  refine ⟨rfl, fun h => ?_⟩
  have hrfl : deepMerge 2 (.map [("k", .str "a")]) (.map [("k", .str "b")]) =
      .error (.mergeConflict (.str "a") (.str "b")) := rfl
  exact Except.noConfusion (hrfl.symm.trans h)

/-- Witness for C5 at the maps `{k: "a"}` and `{k: "b"}` inside an
aggregate fact: the fact ends absent with a merge-conflict diagnostic. -/
theorem claim_C5_witness :
    (lookupKV [("k", Value.str "a")] "k" = some (.str "a"))
    ∧ (lookupKV [("k", Value.str "b")] "k" = some (.str "b"))
    ∧ (∃ l r, getFact (aggColl (mapChunks [("k", Value.str "a")]
          [("k", Value.str "b")])) (0 + 3) "agg" initState =
        (.ok none,
          { cache := setEntry initState.cache "agg" .absent
            resolving := initState.resolving
            diags := initState.diags ++ [AggError.mergeConflict l r]
            runs := initState.runs })
        ∧ l.isScalar = true ∧ r.isScalar = true) := by
  refine ⟨rfl, rfl, ?_⟩
  apply claim_C5.2.2 (aggColl (mapChunks [("k", Value.str "a")]
      [("k", Value.str "b")])) 0 "agg" initState
    [("k", Value.str "a")] [("k", Value.str "b")] none "k"
    (.str "a") (.str "b") rfl rfl rfl rfl rfl rfl
  · intro p hp
    rcases List.mem_cons.mp hp with h | h
    · subst h; rfl
    · cases h
  · intro p hp
    rcases List.mem_cons.mp hp with h | h
    · subst h; rfl
    · cases h

theorem pickNext_spec (done : List String) :
    ∀ (cs : List Chunk) (c : Chunk) (rest : List Chunk),
      pickNext done cs = some (c, rest) →
      ∃ l1 l2, cs = l1 ++ c :: l2 ∧ rest = l1 ++ l2
        ∧ chunkEligible done c = true := by
  intro cs
  induction cs with
  | nil => intro c rest h; cases h
  | cons x xs ih =>
    intro c rest h
    cases he : chunkEligible done x with
    | true =>
      rw [pickNext, if_pos he] at h
      injection h with h2
      injection h2 with hc hr
      subst hc; subst hr
      exact ⟨[], xs, rfl, rfl, he⟩
    | false =>
      rw [pickNext, if_neg (by simp [he])] at h
      cases hp : pickNext done xs with
      | none => rw [hp] at h; cases h
      | some p =>
        rw [hp] at h
        injection h with h2
        obtain ⟨c0, rest0⟩ := p
        injection h2 with hc hr
        subst hc; subst hr
        obtain ⟨l1, l2, hcs, hrest, helig⟩ := ih c0 rest0 hp
        exact ⟨x :: l1, l2, by rw [hcs]; rfl, by rw [hrest]; rfl, helig⟩

theorem topoAux_perm :
    ∀ (f : Nat) (done : List String) (cs ord : List Chunk),
      topoAux f done cs = some ord → ord.Perm cs := by
  intro f
  induction f with
  | zero =>
    intro done cs ord h
    cases cs with
    | nil =>
      rw [topoAux] at h
      injection h with h2
      subst h2
      exact List.Perm.refl []
    | cons x xs => cases h
  | succ f ih =>
    intro done cs ord h
    cases cs with
    | nil =>
      rw [topoAux] at h
      injection h with h2
      subst h2
      exact List.Perm.refl []
    | cons x xs =>
      have h2 : (match pickNext done (x :: xs) with
          | none => none
          | some (c, rest) =>
            (topoAux f (done ++ [c.name]) rest).map (fun l => c :: l)) =
          some ord := h
      cases hp : pickNext done (x :: xs) with
      | none => rw [hp] at h2; cases h2
      | some p =>
        obtain ⟨c0, rest0⟩ := p
        rw [hp] at h2
        simp only [Option.map_eq_some'] at h2
        obtain ⟨ord2, hto, hcons⟩ := h2
        obtain ⟨l1, l2, hcs, hrest, _⟩ :=
          pickNext_spec done (x :: xs) c0 rest0 hp
        have hperm : ord2.Perm rest0 := ih (done ++ [c0.name]) rest0 ord2 hto
        rw [← hcons, hcs]
        rw [hrest] at hperm
        exact (List.Perm.cons c0 hperm).trans List.perm_middle.symm

theorem contains_mem {l : List String} {a : String}
    (h : l.contains a = true) : a ∈ l := by
  simpa using h

theorem mem_contains {l : List String} {a : String} (h : a ∈ l) :
    l.contains a = true := by
  simpa using h

theorem idxOf_append_not_mem (a : String) (l2 : List String) :
    ∀ l1 : List String, a ∉ l1 → idxOf (l1 ++ a :: l2) a = l1.length := by
  intro l1
  induction l1 with
  | nil => intro _; simp [idxOf]
  | cons x l1t ih =>
    intro hnm
    have hxa : (x == a) = false := by
      cases hb : x == a
      · rfl
      · exfalso
        exact hnm (by simp [(by simpa using hb : x = a)])
    have h2 : a ∉ l1t := fun hm => hnm (List.mem_cons_of_mem x hm)
    simp [idxOf, hxa, ih h2]

theorem idxOf_lt_of_mem_prefix (b : String) (l2 : List String) :
    ∀ l1 : List String, b ∈ l1 → idxOf (l1 ++ l2) b < l1.length := by
  intro l1
  induction l1 with
  | nil => intro h; cases h
  | cons x l1t ih =>
    intro hm
    cases hb : x == b with
    | true => simp [idxOf, hb]
    | false =>
      have h2 : b ∈ l1t := by
        rcases List.mem_cons.mp hm with h | h
        · exfalso
          subst h
          simp at hb
        · exact h
      have := ih h2
      simp [idxOf, hb]
      omega

theorem topoAux_topo :
    ∀ (f : Nat) (done : List String) (cs ord : List Chunk),
      topoAux f done cs = some ord →
      ∀ (l1 : List Chunk) (c : Chunk) (l2 : List Chunk),
        ord = l1 ++ c :: l2 →
        ∀ d ∈ c.requires, d ∈ done ∨ d ∈ l1.map Chunk.name := by
  intro f
  induction f with
  | zero =>
    intro done cs ord h l1 c l2 hsplit d hd
    cases cs with
    | nil =>
      rw [topoAux] at h
      injection h with h2
      rw [← h2] at hsplit
      exact absurd hsplit (by cases l1 <;> simp)
    | cons x xs => cases h
  | succ f ih =>
    intro done cs ord h l1 c l2 hsplit d hd
    cases cs with
    | nil =>
      rw [topoAux] at h
      injection h with h2
      rw [← h2] at hsplit
      exact absurd hsplit (by cases l1 <;> simp)
    | cons x xs =>
      have h2 : (match pickNext done (x :: xs) with
          | none => none
          | some (c, rest) =>
            (topoAux f (done ++ [c.name]) rest).map (fun l => c :: l)) =
          some ord := h
      cases hp : pickNext done (x :: xs) with
      | none => rw [hp] at h2; cases h2
      | some p =>
        obtain ⟨c0, rest0⟩ := p
        rw [hp] at h2
        simp only [Option.map_eq_some'] at h2
        obtain ⟨ord2, hto, hcons⟩ := h2
        obtain ⟨_, _, _, _, helig⟩ := pickNext_spec done (x :: xs) c0 rest0 hp
        cases l1 with
        | nil =>
          rw [← hcons] at hsplit
          simp at hsplit
          obtain ⟨hc0, _⟩ := hsplit
          subst hc0
          left
          have hcont := List.all_eq_true.mp helig d hd
          exact contains_mem hcont
        | cons y l1t =>
          rw [← hcons] at hsplit
          have hy : c0 = y ∧ ord2 = l1t ++ c :: l2 := by
            constructor
            · exact (List.cons.injEq c0 ord2 y _).mp hsplit |>.1
            · exact (List.cons.injEq c0 ord2 y _).mp hsplit |>.2
          obtain ⟨hc0y, hord2⟩ := hy
          rcases ih (done ++ [c0.name]) rest0 ord2 hto l1t c l2 hord2 d hd
            with hl | hr
          · rcases List.mem_append.mp hl with ha | hb
            · exact Or.inl ha
            · right
              have : d = c0.name := by simpa using hb
              rw [this, ← hc0y]
              exact List.mem_cons_self _ _
          · right
            rw [← hc0y]
            exact List.mem_cons_of_mem _ hr

theorem topo_none_of_cycle (chunks : List Chunk)
    (hnodup : (chunks.map Chunk.name).Nodup)
    (hcyc : ∃ n, Relation.TransGen (chunkDep chunks) n n) :
    topoChunks chunks = none := by
  cases hto : topoChunks chunks with
  | none => rfl
  | some ord =>
    exfalso
    have hperm : ord.Perm chunks := topoAux_perm chunks.length [] chunks ord hto
    have hnames : (ord.map Chunk.name).Perm (chunks.map Chunk.name) :=
      hperm.map Chunk.name
    have hnd : (ord.map Chunk.name).Nodup := hnames.nodup_iff.mpr hnodup
    have hdec : ∀ a b, chunkDep chunks a b →
        idxOf (ord.map Chunk.name) b < idxOf (ord.map Chunk.name) a := by
      intro a b hdep
      obtain ⟨c, hcmem, hcname, hbreq⟩ := hdep
      have hcord : c ∈ ord := hperm.mem_iff.mpr hcmem
      obtain ⟨l1, l2, hsplit, _⟩ := mem_first_split hcord
      have hnsplit : ord.map Chunk.name =
          l1.map Chunk.name ++ c.name :: l2.map Chunk.name := by
        rw [hsplit]
        simp
      have hnotmem : c.name ∉ l1.map Chunk.name := by
        intro hm
        rw [hnsplit] at hnd
        exact (List.nodup_append.mp hnd).2.2 hm (List.mem_cons_self _ _)
      have hb : b ∈ l1.map Chunk.name := by
        rcases topoAux_topo chunks.length [] chunks ord hto l1 c l2 hsplit b
          hbreq with h | h
        · cases h
        · exact h
      have hpa : idxOf (ord.map Chunk.name) a = (l1.map Chunk.name).length := by
        rw [hnsplit, ← hcname]
        exact idxOf_append_not_mem c.name (l2.map Chunk.name)
          (l1.map Chunk.name) hnotmem
      have hpb : idxOf (ord.map Chunk.name) b < (l1.map Chunk.name).length := by
        rw [hnsplit]
        exact idxOf_lt_of_mem_prefix b (c.name :: l2.map Chunk.name)
          (l1.map Chunk.name) hb
      omega
    obtain ⟨n, htg⟩ := hcyc
    have hall : ∀ m, Relation.TransGen (chunkDep chunks) n m →
        idxOf (ord.map Chunk.name) m < idxOf (ord.map Chunk.name) n := by
      intro m htg2
      induction htg2 with
      | single h => exact hdec _ _ h
      | tail _ hstep ihh => exact lt_trans (hdec _ _ hstep) ihh
    exact absurd (hall n htg) (lt_irrefl _)

theorem findInvalidRef_none (chunks : List Chunk)
    (hvalid : ∀ c ∈ chunks, ∀ d ∈ c.requires, d ∈ chunks.map Chunk.name) :
    findInvalidRef chunks = none := by
  rw [findInvalidRef]
  rw [List.findSome?_eq_none_iff]
  intro c hc
  have hfn : c.requires.find?
      (fun d => !((chunks.map Chunk.name).contains d)) = none := by
    rw [List.find?_eq_none]
    intro d hd
    simpa using hvalid c hc d hd
  rw [hfn]
  rfl

/-- C6: An aggregate resolution whose distinctly named, validly
referencing chunk requirement graph contains a cycle fails: `aggResolve`
reports the chunk-dependency-cycle error (before invoking any producer),
and at the collection level only that fact becomes absent — the
diagnostic is appended, the cache gains exactly the absent entry for that
fact, the in-progress set is restored, and the run continues. -/
theorem claim_C6 (coll : Collection) (f : Nat) (name : String)
    (st : CollState) (chunks : List Chunk) (wt : Option Nat)
    (henv : envLookup coll.env name = none)
    (hcache : cacheLookup st.cache name = none)
    (hres : st.resolving.contains name = false)
    (hfind : coll.facts.find? (fun fd => fd.name == name) =
      some { name := name, resolutions :=
        [{ confines := [], weightOpt := wt, action := .aggregate chunks }] })
    (hnodup : (chunks.map Chunk.name).Nodup)
    (hvalid : ∀ c ∈ chunks, ∀ d ∈ c.requires, d ∈ chunks.map Chunk.name)
    (hcyc : ∃ n, Relation.TransGen (chunkDep chunks) n n) :
    aggResolve f chunks = .error .chunkCycle
    ∧ getFact coll (f + 1) name st =
      (.ok none,
        { cache := setEntry st.cache name .absent
          resolving := st.resolving
          diags := st.diags ++ [AggError.chunkCycle]
          runs := st.runs }) := by
  have hagg : aggResolve f chunks = .error .chunkCycle := by
    simp [aggResolve, findInvalidRef_none chunks hvalid,
      topo_none_of_cycle chunks hnodup hcyc]
  exact ⟨hagg, getFact_aggError coll f name st chunks wt .chunkCycle henv
    hcache hres hfind hagg⟩

/-- Witness for C6 at the concrete cycle `a requires b, b requires a`. -/
theorem claim_C6_witness :
    ((exCycChunks.map Chunk.name).Nodup
     ∧ (∀ c ∈ exCycChunks, ∀ d ∈ c.requires, d ∈ exCycChunks.map Chunk.name)
     ∧ (∃ n, Relation.TransGen (chunkDep exCycChunks) n n))
    ∧ (aggResolve 2 exCycChunks = .error .chunkCycle
       ∧ getFact (aggColl exCycChunks) (2 + 1) "agg" initState =
        (.ok none,
          { cache := setEntry initState.cache "agg" .absent
            resolving := initState.resolving
            diags := initState.diags ++ [AggError.chunkCycle]
            runs := initState.runs })) := by
  have h1 : chunkDep exCycChunks "a" "b" :=
    ⟨{ name := "a", requires := ["b"], producer := fun _ => .array [.str "x"] },
      List.mem_cons_self _ _, rfl, List.mem_cons_self _ _⟩
  have h2 : chunkDep exCycChunks "b" "a" :=
    ⟨{ name := "b", requires := ["a"], producer := fun _ => .array [.str "y"] },
      List.mem_cons_of_mem _ (List.mem_cons_self _ _), rfl,
      List.mem_cons_self _ _⟩
  have hcyc : ∃ n, Relation.TransGen (chunkDep exCycChunks) n n :=
    ⟨"a", Relation.TransGen.tail (Relation.TransGen.single h1) h2⟩
  have hnodup : (exCycChunks.map Chunk.name).Nodup := by decide
  have hvalid : ∀ c ∈ exCycChunks, ∀ d ∈ c.requires,
      d ∈ exCycChunks.map Chunk.name := by decide
  exact ⟨⟨hnodup, hvalid, hcyc⟩,
    claim_C6 (aggColl exCycChunks) 2 "agg" initState exCycChunks none
      rfl rfl rfl rfl hnodup hvalid hcyc⟩

theorem pickNext_none (done : List String) :
    ∀ cs : List Chunk, pickNext done cs = none →
      ∀ c ∈ cs, chunkEligible done c = false := by
  intro cs
  induction cs with
  | nil => intro _ c hc; cases hc
  | cons x xs ih =>
    intro h c hc
    cases he : chunkEligible done x with
    | true => rw [pickNext, if_pos he] at h; cases h
    | false =>
      rw [pickNext, if_neg (by simp [he])] at h
      cases hp : pickNext done xs with
      | some p => rw [hp] at h; cases h
      | none =>
        rcases List.mem_cons.mp hc with h2 | h2
        · rw [h2]; exact he
        · exact ih hp c h2

theorem pickNext_isSome_of_exists (done : List String) :
    ∀ cs : List Chunk, (∃ c ∈ cs, chunkEligible done c = true) →
      ∃ p, pickNext done cs = some p := by
  intro cs h
  cases hp : pickNext done cs with
  | some p => exact ⟨p, rfl⟩
  | none =>
    obtain ⟨c, hc, helig⟩ := h
    have := pickNext_none done cs hp c hc
    rw [helig] at this
    cases this

theorem exists_eligible_of_acyclic (chunks : List Chunk)
    (hacyc : ¬ ∃ n, Relation.TransGen (chunkDep chunks) n n)
    (done : List String) (cs : List Chunk)
    (hne : cs ≠ [])
    (hsub : ∀ c ∈ cs, c ∈ chunks)
    (hclo : ∀ c ∈ cs, ∀ d ∈ c.requires,
      done.contains d = true ∨ d ∈ cs.map Chunk.name) :
    ∃ c ∈ cs, chunkEligible done c = true := by
  by_contra hno
  push_neg at hno
  have hstuck : ∀ c ∈ cs, chunkEligible done c = false := by
    intro c hc
    cases he : chunkEligible done c with
    | true => exact absurd he (hno c hc)
    | false => rfl
  have hstep : ∀ a, a ∈ cs.map Chunk.name →
      ∃ b, b ∈ cs.map Chunk.name ∧ chunkDep chunks a b := by
    intro a ha
    obtain ⟨c, hc, hcname⟩ := List.mem_map.mp ha
    have hel := hstuck c hc
    rw [chunkEligible] at hel
    obtain ⟨d, hd, hdc⟩ := List.all_eq_false.mp hel
    have hcl := hclo c hc d hd
    rcases hcl with h | h
    · exact absurd h hdc
    · exact ⟨d, h, ⟨c, hsub c hc, hcname, hd⟩⟩
  have hnonempty : ∃ a, a ∈ cs.map Chunk.name := by
    cases cs with
    | nil => exact absurd rfl hne
    | cons x xs => exact ⟨x.name, List.mem_cons_self _ _⟩
  obtain ⟨a0, ha0⟩ := hnonempty
  let γ := { a : String // a ∈ cs.map Chunk.name }
  let rr : γ → γ → Prop :=
    fun x y => Relation.TransGen (chunkDep chunks) y.val x.val
  haveI htr : IsTrans γ rr := ⟨fun _ _ _ hxy hyz => hyz.trans hxy⟩
  haveI hir : IsIrrefl γ rr := ⟨fun x hx => hacyc ⟨x.val, hx⟩⟩
  have hwf : WellFounded rr := Finite.wellFounded_of_trans_of_irrefl rr
  obtain ⟨m, _, hmin⟩ := hwf.has_min Set.univ ⟨⟨a0, ha0⟩, trivial⟩
  obtain ⟨b, hb, hdep⟩ := hstep m.val m.property
  exact hmin ⟨b, hb⟩ trivial (Relation.TransGen.single hdep)

theorem contains_append_left (done : List String) (tail2 : List String)
    (d : String) (h : done.contains d = true) :
    (done ++ tail2).contains d = true :=
  mem_contains (List.mem_append_left tail2 (contains_mem h))

theorem topoAux_isSome (chunks : List Chunk)
    (hacyc : ¬ ∃ n, Relation.TransGen (chunkDep chunks) n n) :
    ∀ (f : Nat) (done : List String) (cs : List Chunk),
      cs.length ≤ f →
      (∀ c ∈ cs, c ∈ chunks) →
      (∀ c ∈ cs, ∀ d ∈ c.requires,
        done.contains d = true ∨ d ∈ cs.map Chunk.name) →
      ∃ ord, topoAux f done cs = some ord := by
  intro f
  induction f with
  | zero =>
    intro done cs hlen _ _
    have : cs = [] := List.eq_nil_of_length_eq_zero (Nat.le_zero.mp hlen)
    subst this
    exact ⟨[], rfl⟩
  | succ f ih =>
    intro done cs hlen hsub hclo
    cases hcs : cs with
    | nil => exact ⟨[], rfl⟩
    | cons x xs =>
      subst hcs
      have hne : x :: xs ≠ [] := by simp
      obtain ⟨p, hp⟩ := pickNext_isSome_of_exists done (x :: xs)
        (exists_eligible_of_acyclic chunks hacyc done (x :: xs) hne hsub hclo)
      obtain ⟨c0, rest0⟩ := p
      obtain ⟨l1, l2, hsplit, hrest, _⟩ :=
        pickNext_spec done (x :: xs) c0 rest0 hp
      have hlen2 : rest0.length ≤ f := by
        have h1 : (x :: xs).length = l1.length + l2.length + 1 := by
          rw [hsplit]
          simp
          omega
        have h2 : rest0.length = l1.length + l2.length := by
          rw [hrest]
          simp
        omega
      have hsub2 : ∀ c ∈ rest0, c ∈ chunks := by
        intro c hc
        apply hsub
        rw [hsplit]
        rw [hrest] at hc
        rcases List.mem_append.mp hc with h | h
        · exact List.mem_append_left _ h
        · exact List.mem_append_right _ (List.mem_cons_of_mem _ h)
      have hclo2 : ∀ c ∈ rest0, ∀ d ∈ c.requires,
          (done ++ [c0.name]).contains d = true ∨ d ∈ rest0.map Chunk.name := by
        intro c hc d hd
        have hmem : c ∈ x :: xs := by
          rw [hsplit]
          rw [hrest] at hc
          rcases List.mem_append.mp hc with h | h
          · exact List.mem_append_left _ h
          · exact List.mem_append_right _ (List.mem_cons_of_mem _ h)
        rcases hclo c hmem d hd with h | h
        · exact Or.inl (contains_append_left done [c0.name] d h)
        · obtain ⟨c2, hc2, hc2name⟩ := List.mem_map.mp h
          rw [hsplit] at hc2
          rcases List.mem_append.mp hc2 with h2 | h2
          · right
            rw [hrest]
            exact List.mem_map.mpr ⟨c2, List.mem_append_left _ h2, hc2name⟩
          · rcases List.mem_cons.mp h2 with h3 | h3
            · left
              rw [← hc2name, h3]
              exact mem_contains (List.mem_append_right done
                (List.mem_cons_self _ _))
            · right
              rw [hrest]
              exact List.mem_map.mpr ⟨c2, List.mem_append_right _ h3, hc2name⟩
      obtain ⟨ord2, hto⟩ := ih (done ++ [c0.name]) rest0 hlen2 hsub2 hclo2
      refine ⟨c0 :: ord2, ?_⟩
      have heq : topoAux (f + 1) done (x :: xs) =
          (match pickNext done (x :: xs) with
           | none => none
           | some (c, rest) =>
             (topoAux f (done ++ [c.name]) rest).map (fun l => c :: l)) := rfl
      rw [heq, hp]
      show Option.map (fun l => c0 :: l) (topoAux f (done ++ [c0.name]) rest0)
        = some (c0 :: ord2)
      rw [hto]
      rfl

theorem runOrder_arrays (mf : Nat) (outs : String → List Value) :
    ∀ (ord : List Chunk) (computed : List (String × Value)) (acc : List Value),
      (∀ c ∈ ord, ∀ args, c.producer args = .array (outs c.name)) →
      runOrder (mf + 1) ord computed (.array acc) =
        .ok (.array (acc ++ (ord.map (fun c => outs c.name)).flatten)) := by
  intro ord
  induction ord with
  | nil => intro computed acc _; simp [runOrder]
  | cons c rest ih =>
    intro computed acc h
    have heq : runOrder (mf + 1) (c :: rest) computed (.array acc) =
        (match deepMerge (mf + 1) (.array acc)
            (c.producer (c.requires.map
              (fun d => (lookupKV computed d).getD Value.null))) with
         | .ok acc2 => runOrder (mf + 1) rest
             (computed ++ [(c.name, c.producer (c.requires.map
               (fun d => (lookupKV computed d).getD Value.null)))]) acc2
         | .error e => .error e) := rfl
    rw [heq, h c (List.mem_cons_self _ _)]
    have h2 : deepMerge (mf + 1) (Value.array acc)
        (Value.array (outs c.name)) = .ok (.array (acc ++ outs c.name)) := rfl
    rw [h2]
    show runOrder (mf + 1) rest
        (computed ++ [(c.name, Value.array (outs c.name))])
        (.array (acc ++ outs c.name)) = _
    rw [ih (computed ++ [(c.name, Value.array (outs c.name))])
      (acc ++ outs c.name) (fun c2 hc2 args =>
        h c2 (List.mem_cons_of_mem _ hc2) args)]
    simp

theorem topoAux_all_free :
    ∀ (f : Nat) (done : List String) (cs : List Chunk),
      (∀ c ∈ cs, c.requires = []) → cs.length ≤ f →
      topoAux f done cs = some cs := by
  intro f
  induction f with
  | zero =>
    intro done cs _ hlen
    have h0 : cs = [] := List.eq_nil_of_length_eq_zero (Nat.le_zero.mp hlen)
    subst h0
    rfl
  | succ f ih =>
    intro done cs hf hlen
    cases cs with
    | nil => rfl
    | cons x xs =>
      have he : chunkEligible done x = true := by
        rw [chunkEligible, hf x (List.mem_cons_self _ _)]
        rfl
      have hp : pickNext done (x :: xs) = some (x, xs) := by
        rw [pickNext, if_pos he]
      have heq : topoAux (f + 1) done (x :: xs) =
          (match pickNext done (x :: xs) with
           | none => none
           | some (c, rest) =>
             (topoAux f (done ++ [c.name]) rest).map (fun l => c :: l)) := rfl
      rw [heq, hp]
      show Option.map (fun l => x :: l) (topoAux f (done ++ [x.name]) xs) =
        some (x :: xs)
      rw [ih (done ++ [x.name]) xs
        (fun c hc => hf c (List.mem_cons_of_mem _ hc))
        (by simp at hlen; omega)]
      rfl

/-- C4: For a nonempty aggregate whose requirement graph is acyclic and
references only existing chunks, and whose chunk producers all yield
arrays, resolution succeeds with the concatenation of the chunk arrays
along the computed order; that order is a permutation of the chunks
placing every chunk after all chunks it requires, and it equals
declaration order when no chunk has requirements (stability). -/
theorem claim_C4 (chunks : List Chunk) (mf : Nat) (outs : String → List Value)
    (hne : chunks ≠ [])
    (hvalid : ∀ c ∈ chunks, ∀ d ∈ c.requires, d ∈ chunks.map Chunk.name)
    (hacyc : ¬ ∃ n, Relation.TransGen (chunkDep chunks) n n)
    (harr : ∀ c ∈ chunks, ∀ args, c.producer args = .array (outs c.name)) :
    ∃ ord, topoChunks chunks = some ord
      ∧ ord.Perm chunks
      ∧ (∀ l1 c l2, ord = l1 ++ c :: l2 → ∀ d ∈ c.requires,
          d ∈ l1.map Chunk.name)
      ∧ aggResolve (mf + 1) chunks =
          .ok (.array ((ord.map (fun c => outs c.name)).flatten))
      ∧ ((∀ c ∈ chunks, c.requires = []) → ord = chunks) := by
  obtain ⟨ord, hto⟩ := topoAux_isSome chunks hacyc chunks.length [] chunks
    le_rfl (fun c h => h) (fun c hc d hd => Or.inr (hvalid c hc d hd))
  have hperm : ord.Perm chunks := topoAux_perm chunks.length [] chunks ord hto
  have htopo : ∀ l1 c l2, ord = l1 ++ c :: l2 → ∀ d ∈ c.requires,
      d ∈ l1.map Chunk.name := by
    intro l1 c l2 hsplit d hd
    rcases topoAux_topo chunks.length [] chunks ord hto l1 c l2 hsplit d hd
      with h | h
    · cases h
    · exact h
  have htc : topoChunks chunks = some ord := hto
  have hagg : aggResolve (mf + 1) chunks =
      .ok (.array ((ord.map (fun c => outs c.name)).flatten)) := by
    have hfi := findInvalidRef_none chunks hvalid
    have h0 : aggResolve (mf + 1) chunks =
        (match findInvalidRef chunks with
         | some p => .error (.invalidReference p.1 p.2)
         | none =>
           match topoChunks chunks with
           | none => .error .chunkCycle
           | some ord2 => runOrder (mf + 1) ord2 [] .null) := rfl
    rw [h0, hfi]
    show (match topoChunks chunks with
         | none => Except.error AggError.chunkCycle
         | some ord2 => runOrder (mf + 1) ord2 [] Value.null) = _
    rw [htc]
    show runOrder (mf + 1) ord [] Value.null = _
    have hall : ∀ c ∈ ord, ∀ args, c.producer args = .array (outs c.name) :=
      fun c hc args => harr c (hperm.mem_iff.mp hc) args
    cases hord : ord with
    | nil =>
      exfalso
      rw [hord] at hperm
      exact hne (List.Perm.eq_nil hperm.symm)
    | cons c0 ord3 =>
      rw [hord] at hall
      have hmem0 : c0 ∈ c0 :: ord3 := List.mem_cons_self _ _
      have hc0 : ∀ args, c0.producer args = .array (outs c0.name) :=
        hall c0 hmem0
      have h1 : runOrder (mf + 1) (c0 :: ord3) [] Value.null =
          (match deepMerge (mf + 1) Value.null
              (c0.producer (c0.requires.map
                (fun d => (lookupKV [] d).getD Value.null))) with
           | .ok acc2 => runOrder (mf + 1) ord3
               ([] ++ [(c0.name, c0.producer (c0.requires.map
                 (fun d => (lookupKV [] d).getD Value.null)))]) acc2
           | .error e => .error e) := rfl
      rw [h1, hc0]
      have h2 : deepMerge (mf + 1) Value.null
          (Value.array (outs c0.name)) = .ok (.array (outs c0.name)) := rfl
      rw [h2]
      show runOrder (mf + 1) ord3
          ([] ++ [(c0.name, Value.array (outs c0.name))])
          (.array (outs c0.name)) = _
      have hallt : ∀ c2 ∈ ord3, ∀ args,
          c2.producer args = .array (outs c2.name) :=
        fun c2 hc2 args => hall c2 (List.mem_cons_of_mem _ hc2) args
      rw [runOrder_arrays mf outs ord3
        ([] ++ [(c0.name, Value.array (outs c0.name))])
        (outs c0.name) hallt]
      rfl
  refine ⟨ord, htc, hperm, htopo, hagg, ?_⟩
  intro hfree
  have h3 := topoAux_all_free chunks.length [] chunks hfree le_rfl
  have h4 : some ord = some chunks := hto.symm.trans h3
  injection h4

/-- Witness for C4 at the spec's example `{a: [], b: [requires a]}`
producing `["x"]` and `["y"]`: the aggregate yields `["x", "y"]`. -/
theorem claim_C4_witness :
    (exChunks ≠ []
     ∧ (∀ c ∈ exChunks, ∀ d ∈ c.requires, d ∈ exChunks.map Chunk.name)
     ∧ (¬ ∃ n, Relation.TransGen (chunkDep exChunks) n n))
    ∧ (∃ ord, topoChunks exChunks = some ord
        ∧ ord.Perm exChunks
        ∧ (∀ l1 c l2, ord = l1 ++ c :: l2 → ∀ d ∈ c.requires,
            d ∈ l1.map Chunk.name)
        ∧ aggResolve (2 + 1) exChunks =
            .ok (.array ((ord.map (fun c => outsEx c.name)).flatten))
        ∧ ((∀ c ∈ exChunks, c.requires = []) → ord = exChunks)) := by
  have hne : exChunks ≠ [] := by simp [exChunks]
  have hvalid : ∀ c ∈ exChunks, ∀ d ∈ c.requires,
      d ∈ exChunks.map Chunk.name := by decide
  have hstep : ∀ x y, chunkDep exChunks x y → x = "b" ∧ y = "a" := by
    rintro x y ⟨c, hc, hn, hr⟩
    rcases List.mem_cons.mp hc with h | h
    · subst h
      exact absurd hr (List.not_mem_nil y)
    · rcases List.mem_cons.mp h with h2 | h2
      · subst h2
        refine ⟨hn.symm, ?_⟩
        rcases List.mem_cons.mp hr with h3 | h3
        · exact h3
        · cases h3
      · cases h2
  have hacyc : ¬ ∃ n, Relation.TransGen (chunkDep exChunks) n n := by
    rintro ⟨n, htg⟩
    obtain ⟨z, hz, hrest⟩ := Relation.TransGen.head'_iff.mp htg
    obtain ⟨hn, hz2⟩ := hstep n z hz
    subst hn
    subst hz2
    rcases Relation.ReflTransGen.cases_head hrest with h | ⟨w, hw, _⟩
    · exact absurd h (by decide)
    · exact absurd (hstep "a" w hw).1 (by decide)
  have harr : ∀ c ∈ exChunks, ∀ args,
      c.producer args = .array (outsEx c.name) := by
    intro c hc args
    rcases List.mem_cons.mp hc with h | h
    · subst h; rfl
    · rcases List.mem_cons.mp h with h2 | h2
      · subst h2; rfl
      · cases h2
  exact ⟨⟨hne, hvalid, hacyc⟩,
    claim_C4 exChunks 2 outsEx hne hvalid hacyc harr⟩

end Facter
